import Mathlib

/-!
Shallow embedding of the Docling GUI batch document converter
(config.py, conversion_utils.py, docling_gui.py) and proofs about it.

Conventions of the embedding:
- Python dictionaries of settings become a record of Option-valued fields;
  a missing key is none, and dict.get with a default becomes Option.getD.
- Capability probing (hasattr on the external configuration object) is a
  record of Booleans, DoclingSchema, saying which optional fields the
  installed library version declares; an optional field that is never set
  is modelled as none.
- Python floats that only carry configuration values (ocr_confidence,
  images_scale, progress percentages) are modelled as exact rationals.
- Regular-expression substitution in the Text export is implemented
  character by character with the leftmost-match, lazy-quantifier
  semantics of the Python re module; the whitespace class is modelled on
  the ASCII whitespace characters.
- Paths follow the POSIX rules of os.path.join and os.path.splitext.
-/

namespace DoclingGui

/-! ### config.py -/

/-- Keys of config.SUPPORTED_EXTENSIONS (config.py lines 6-22). -/
def SUPPORTED_EXTENSIONS : List String :=
  [".pdf", ".docx", ".pptx", ".xlsx", ".html", ".htm", ".png", ".jpg",
   ".jpeg", ".tiff", ".tif", ".bmp", ".wav", ".mp3", ".vtt"]

/-! ### Python string and path primitives -/

/-- ASCII lower casing, as str.lower acts on ASCII extension strings. -/
def strLower (s : String) : String :=
  String.mk (s.data.map Char.toLower)

/-- The whitespace class of a Python regular expression, on ASCII text. -/
def isPySpace (c : Char) : Bool :=
  c = ' ' || c = '\t' || c = '\n' || c = '\r' || c = '\x0b' || c = '\x0c'

/-- Extension part of os.path.splitext restricted to a basename: the part
from the last dot on, empty when every character before that dot is a dot. -/
def extOfName (name : List Char) : List Char :=
  let rev := name.reverse
  if rev.contains '.' then
    let sufRev := rev.takeWhile (fun c => c ≠ '.')
    let preRev := rev.drop (sufRev.length + 1)
    if preRev.any (fun c => c ≠ '.') then '.' :: sufRev.reverse else []
  else []

/-- Lower-cased extension of a path: os.path.splitext(p)[1].lower() with
POSIX separators, as add_file_to_list computes it. -/
def splitextExtLower (p : String) : String :=
  strLower (String.mk (extOfName ((p.data.reverse.takeWhile (fun c => c ≠ '/')).reverse)))

/-- POSIX os.path.join for two components. -/
def os_path_join (a b : String) : String :=
  if b.data.head? = some '/' then b
  else if a = "" ∨ a.data.getLast? = some '/' then a ++ b
  else a ++ "/" ++ b

/-! ### Markdown stripping: the Text branch of export_content
(conversion_utils.py lines 105-113), one function per re.sub call. -/

/-- Length of the leading run of hash characters. -/
def countHashes : List Char → Nat
  | [] => 0
  | c :: rest => if c = '#' then countHashes rest + 1 else 0

/-- Whether the list starts with a regex whitespace character. -/
def headIsSpace (l : List Char) : Bool :=
  match l with
  | [] => false
  | c :: _ => isPySpace c

/-- Drops the leading greedy whitespace run; the Bool records whether the
last dropped character was a newline, so MULTILINE anchors keep working. -/
def dropSpacesTrack : List Char → Bool → List Char × Bool
  | [], lastNl => ([], lastNl)
  | c :: rest, lastNl =>
    if isPySpace c then dropSpacesTrack rest (c = '\n') else (c :: rest, lastNl)

/-- The heading substitution: at each line start, one to six hashes followed
by at least one whitespace character are removed together with the greedy
whitespace run. The Bool says whether the position is a line start. -/
def stripHeadings : Bool → List Char → List Char
  | _, [] => []
  | atStart, c :: rest =>
    if _h : atStart ∧ 1 ≤ countHashes (c :: rest) ∧ countHashes (c :: rest) ≤ 6 ∧
        headIsSpace ((c :: rest).drop (countHashes (c :: rest))) = true then
      let p := dropSpacesTrack ((c :: rest).drop (countHashes (c :: rest))) false
      stripHeadings p.2 p.1
    else
      c :: stripHeadings (c = '\n') rest
termination_by _ l => l.length
decreasing_by
  · simp only [List.length_cons]
    have hd : ∀ (l : List Char) (b : Bool), (dropSpacesTrack l b).1.length ≤ l.length := by
      intro l
      induction l with
      | nil => intro b; simp [dropSpacesTrack]
      | cons c rest ih =>
        intro b
        simp only [dropSpacesTrack]
        by_cases hc : isPySpace c
        · simp only [hc, if_true]
          exact le_trans (ih _) (by simp)
        · simp [hc]
    have h1 := hd ((c :: rest).drop (countHashes (c :: rest))) false
    have h2 : ((c :: rest).drop (countHashes (c :: rest))).length
        = (c :: rest).length - countHashes (c :: rest) := List.length_drop _ _
    have h3 : 1 ≤ countHashes (c :: rest) := _h.2.1
    simp only [List.length_cons] at h2
    omega
  · simp

/-- The closing search for bold: the shortest nonempty newline-free content
followed by two asterisks, returning the content and the remainder. -/
def findBoldClose : List Char → Option (List Char × List Char)
  | [] => none
  | c :: rest =>
    if c = '\n' then none
    else if rest.head? = some '*' ∧ rest.tail.head? = some '*' then
      some ([c], rest.tail.tail)
    else
      (findBoldClose rest).map (fun p => (c :: p.1, p.2))

/-- The bold substitution: each lazily matched span between double asterisks
is replaced by its content. -/
def stripBold : List Char → List Char
  | [] => []
  | [c] => [c]
  | c :: d :: rest =>
    if c = '*' ∧ d = '*' then
      match _hm : findBoldClose rest with
      | some p => p.1 ++ stripBold p.2
      | none => c :: stripBold (d :: rest)
    else c :: stripBold (d :: rest)
termination_by l => l.length
decreasing_by
  · have key : ∀ (l : List Char) (p : List Char × List Char),
        findBoldClose l = some p → p.2.length < l.length := by
      intro l
      induction l with
      | nil => intro p hp; simp [findBoldClose] at hp
      | cons c rest ih =>
        intro p hp
        simp only [findBoldClose] at hp
        by_cases hc : c = '\n'
        · rw [if_pos hc] at hp; simp at hp
        · rw [if_neg hc] at hp
          by_cases h2 : rest.head? = some '*' ∧ rest.tail.head? = some '*'
          · rw [if_pos h2] at hp
            simp only [Option.some.injEq] at hp
            subst hp
            have := List.length_tail rest.tail
            have := List.length_tail rest
            simp only [List.length_cons]
            omega
          · rw [if_neg h2, Option.map_eq_some'] at hp
            obtain ⟨q, hq, hqp⟩ := hp
            have := ih q hq
            subst hqp
            simp only [List.length_cons]
            omega
    have := key rest _ _hm
    simp only [List.length_cons]
    omega
  · simp
  · simp

/-- The closing search for italic: the shortest nonempty newline-free
content followed by one asterisk. -/
def findItalicClose : List Char → Option (List Char × List Char)
  | [] => none
  | c :: rest =>
    if c = '\n' then none
    else if rest.head? = some '*' then some ([c], rest.tail)
    else (findItalicClose rest).map (fun p => (c :: p.1, p.2))

/-- The italic substitution: each lazily matched span between single
asterisks is replaced by its content. -/
def stripItalic : List Char → List Char
  | [] => []
  | c :: rest =>
    if c = '*' then
      match _hm : findItalicClose rest with
      | some p => p.1 ++ stripItalic p.2
      | none => c :: stripItalic rest
    else c :: stripItalic rest
termination_by l => l.length
decreasing_by
  · have key : ∀ (l : List Char) (p : List Char × List Char),
        findItalicClose l = some p → p.2.length < l.length := by
      intro l
      induction l with
      | nil => intro p hp; simp [findItalicClose] at hp
      | cons c rest ih =>
        intro p hp
        simp only [findItalicClose] at hp
        by_cases hc : c = '\n'
        · rw [if_pos hc] at hp; simp at hp
        · rw [if_neg hc] at hp
          by_cases h2 : rest.head? = some '*'
          · rw [if_pos h2] at hp
            simp only [Option.some.injEq] at hp
            subst hp
            have := List.length_tail rest
            simp only [List.length_cons]
            omega
          · rw [if_neg h2, Option.map_eq_some'] at hp
            obtain ⟨q, hq, hqp⟩ := hp
            have := ih q hq
            subst hqp
            simp only [List.length_cons]
            omega
    have := key rest _ _hm
    simp only [List.length_cons]
    omega
  · simp
  · simp

/-- The lazy search for the closing parenthesis of a link or image target:
everything up to the first closing parenthesis, failing on a newline. -/
def findParenClose : List Char → Option (List Char)
  | [] => none
  | c :: rest =>
    if c = ')' then some rest
    else if c = '\n' then none
    else findParenClose rest

/-- The tail search for an image: a lazily matched, possibly empty
newline-free alt text up to a bracket-parenthesis pair whose target closes,
returning the alt text and the remainder after the closing parenthesis. -/
def findTailFrom : List Char → Option (List Char × List Char)
  | [] => none
  | c :: rest =>
    if c = ']' ∧ rest.head? = some '(' ∧ (findParenClose rest.tail).isSome then
      (findParenClose rest.tail).map (fun r => (([] : List Char), r))
    else if c = '\n' then none
    else (findTailFrom rest).map (fun p => (c :: p.1, p.2))

/-- The image substitution: each lazily matched image is removed. -/
def stripImages : List Char → List Char
  | [] => []
  | [c] => [c]
  | c :: d :: rest =>
    if c = '!' ∧ d = '[' then
      match _hm : findTailFrom rest with
      | some p => stripImages p.2
      | none => c :: stripImages (d :: rest)
    else c :: stripImages (d :: rest)
termination_by l => l.length
decreasing_by
  · have keyP : ∀ (l r : List Char), findParenClose l = some r → r.length < l.length := by
      intro l
      induction l with
      | nil => intro r hr; simp [findParenClose] at hr
      | cons c rest ih =>
        intro r hr
        simp only [findParenClose] at hr
        by_cases hc : c = ')'
        · rw [if_pos hc] at hr
          simp only [Option.some.injEq] at hr
          subst hr
          simp
        · rw [if_neg hc] at hr
          by_cases hn : c = '\n'
          · rw [if_pos hn] at hr; simp at hr
          · rw [if_neg hn] at hr
            have := ih r hr
            simp only [List.length_cons]
            omega
    have key : ∀ (l : List Char) (p : List Char × List Char),
        findTailFrom l = some p → p.2.length < l.length := by
      intro l
      induction l with
      | nil => intro p hp; simp [findTailFrom] at hp
      | cons c rest ih =>
        intro p hp
        simp only [findTailFrom] at hp
        by_cases hc : c = ']' ∧ rest.head? = some '(' ∧ (findParenClose rest.tail).isSome
        · rw [if_pos hc, Option.map_eq_some'] at hp
          obtain ⟨r, hr, hrp⟩ := hp
          have h1 := keyP rest.tail r hr
          have h2 := List.length_tail rest
          subst hrp
          simp only [List.length_cons]
          omega
        · rw [if_neg hc] at hp
          by_cases hn : c = '\n'
          · rw [if_pos hn] at hp; simp at hp
          · rw [if_neg hn, Option.map_eq_some'] at hp
            obtain ⟨q, hq, hqp⟩ := hp
            have := ih q hq
            subst hqp
            simp only [List.length_cons]
            omega
    have := key rest _ _hm
    simp only [List.length_cons]
    omega
  · simp
  · simp

/-- The tail search for a link: a lazily matched nonempty newline-free link
text up to a bracket-parenthesis pair whose target closes, returning the
text and the remainder after the closing parenthesis. -/
def findLinkTail : List Char → Option (List Char × List Char)
  | [] => none
  | c :: rest =>
    if c = '\n' then none
    else if rest.head? = some ']' ∧ rest.tail.head? = some '(' ∧
        (findParenClose rest.tail.tail).isSome then
      (findParenClose rest.tail.tail).map (fun r => ([c], r))
    else (findLinkTail rest).map (fun p => (c :: p.1, p.2))

/-- The link substitution: each lazily matched link is replaced by its text. -/
def stripLinks : List Char → List Char
  | [] => []
  | c :: rest =>
    if c = '[' then
      match _hm : findLinkTail rest with
      | some p => p.1 ++ stripLinks p.2
      | none => c :: stripLinks rest
    else c :: stripLinks rest
termination_by l => l.length
decreasing_by
  · have keyP : ∀ (l r : List Char), findParenClose l = some r → r.length < l.length := by
      intro l
      induction l with
      | nil => intro r hr; simp [findParenClose] at hr
      | cons c rest ih =>
        intro r hr
        simp only [findParenClose] at hr
        by_cases hc : c = ')'
        · rw [if_pos hc] at hr
          simp only [Option.some.injEq] at hr
          subst hr
          simp
        · rw [if_neg hc] at hr
          by_cases hn : c = '\n'
          · rw [if_pos hn] at hr; simp at hr
          · rw [if_neg hn] at hr
            have := ih r hr
            simp only [List.length_cons]
            omega
    have key : ∀ (l : List Char) (p : List Char × List Char),
        findLinkTail l = some p → p.2.length < l.length := by
      intro l
      induction l with
      | nil => intro p hp; simp [findLinkTail] at hp
      | cons c rest ih =>
        intro p hp
        simp only [findLinkTail] at hp
        by_cases hn : c = '\n'
        · rw [if_pos hn] at hp; simp at hp
        · rw [if_neg hn] at hp
          by_cases hc : rest.head? = some ']' ∧ rest.tail.head? = some '(' ∧
              (findParenClose rest.tail.tail).isSome
          · rw [if_pos hc, Option.map_eq_some'] at hp
            obtain ⟨r, hr, hrp⟩ := hp
            have h1 := keyP rest.tail.tail r hr
            have h2 := List.length_tail rest
            have h3 := List.length_tail rest.tail
            subst hrp
            simp only [List.length_cons]
            omega
          · rw [if_neg hc, Option.map_eq_some'] at hp
            obtain ⟨q, hq, hqp⟩ := hp
            have := ih q hq
            subst hqp
            simp only [List.length_cons]
            omega
    have := key rest _ _hm
    simp only [List.length_cons]
    omega
  · simp
  · simp

/-- The Text export: the five re.sub substitutions of export_content in
their source order (headings, bold, italic, images, links). -/
def textOfMarkdown (md : String) : String :=
  String.mk (stripLinks (stripImages (stripItalic (stripBold (stripHeadings true md.data)))))

/-- No adjacent pair of asterisks anywhere in the list (so the bold
pattern can never start a match). -/
def noDoubleStar : List Char → Bool
  | [] => true
  | [_] => true
  | c :: d :: rest => !(c = '*' && d = '*') && noDoubleStar (d :: rest)

/-- No exclamation mark immediately followed by an opening bracket (so the
image pattern can never start a match). -/
def noImgStart : List Char → Bool
  | [] => true
  | [_] => true
  | c :: d :: rest => !(c = '!' && d = '[') && noImgStart (d :: rest)

/-- A character that takes part in none of the five Text substitutions:
not a hash, asterisk, bracket, parenthesis, exclamation mark or newline. -/
def plainChar (c : Char) : Bool :=
  !(c = '#' || c = '*' || c = '[' || c = ']' || c = '(' || c = ')' ||
    c = '!' || c = '\n')

/-! ### conversion_utils.py -/

/-- A converted document as export_content sees it (result.document).
The export calls of the external library are opaque string-valued fields;
doctags is none when the document object has no export_to_doctags
attribute. json_dump stands for the string json.dumps produces from
export_to_dict with indent 2 and ensure_ascii False. -/
structure DoclingDocument where
  export_to_markdown : String
  export_to_html : String
  json_dump : String
  export_to_doctags : Option String

/-- get_output_extension (conversion_utils.py lines 78-87): the extension
dictionary lookup with default ".txt". -/
def get_output_extension (format_name : String) : String :=
  if format_name = "Markdown" then ".md"
  else if format_name = "HTML" then ".html"
  else if format_name = "JSON" then ".json"
  else if format_name = "DocTags" then ".doctags"
  else if format_name = "Text" then ".txt"
  else ".txt"

/-- export_content (conversion_utils.py lines 90-115). -/
def export_content (doc : DoclingDocument) (format_name : String) : String :=
  if format_name = "Markdown" then doc.export_to_markdown
  else if format_name = "HTML" then doc.export_to_html
  else if format_name = "JSON" then doc.json_dump
  else if format_name = "DocTags" then
    match doc.export_to_doctags with
    | some s => s
    | none => doc.export_to_markdown
  else if format_name = "Text" then textOfMarkdown doc.export_to_markdown
  else doc.export_to_markdown

/-- The settings dictionary restricted to the keys build_pipeline_options
reads; a missing key is none. -/
structure Settings where
  enable_ocr : Option Bool
  do_table_structure : Option Bool
  do_picture_classification : Option Bool
  do_picture_description : Option Bool
  generate_page_images : Option Bool
  generate_picture_images : Option Bool
  generate_table_images : Option Bool
  do_formula_enrichment : Option Bool
  do_code_enrichment : Option Bool
  table_mode : Option String
  do_cell_matching : Option Bool
  ocr_engine : Option String
  ocr_language : Option String
  force_full_page_ocr : Option Bool
  ocr_confidence : Option ℚ
  device : Option String
  num_threads : Option Int
  use_flash_attention : Option Bool
  images_scale : Option ℚ
  document_timeout : Option Int

/-- Which parts of the external library imported and which optional fields
its configuration schema declares (the try-import flags and the hasattr
probes of conversion_utils.py). -/
structure DoclingSchema where
  docling_available : Bool
  ocr_options_available : Bool
  ocrmac_available : Bool
  has_formula_enrichment : Bool
  has_code_enrichment : Bool
  has_table_structure_options : Bool
  has_flash_attention : Bool
  has_images_scale : Bool
  has_document_timeout : Bool

/-- TableFormerMode of the external library. -/
inductive TableFormerMode where
  | fast
  | accurate
  deriving DecidableEq

/-- The table_structure_options sub-object. -/
structure TableStructureOptions where
  mode : TableFormerMode
  do_cell_matching : Bool
  deriving DecidableEq

/-- The engine-specific OCR options variants build_pipeline_options can
construct (conversion_utils.py lines 167-182). -/
inductive OcrOptions where
  | easyOcr (lang : List String) (force_full_page_ocr : Bool) (confidence_threshold : ℚ)
  | rapidOcr (lang : List String) (force_full_page_ocr : Bool)
  | ocrMac (lang : String) (force_full_page_ocr : Bool)
  deriving DecidableEq

/-- AcceleratorOptions; the flash-attention flag is optional in the schema. -/
structure AcceleratorOptions where
  device : String
  num_threads : Int
  cuda_use_flash_attention2 : Option Bool
  deriving DecidableEq

/-- PdfPipelineOptions as build_pipeline_options fills it; a none in an
optional field means the builder left the field untouched (either the
schema lacks it or, for ocr_options and document_timeout, the setting did
not ask for it). -/
structure PdfPipelineOptions where
  do_ocr : Bool
  do_table_structure : Bool
  do_picture_classification : Bool
  do_picture_description : Bool
  generate_page_images : Bool
  generate_picture_images : Bool
  generate_table_images : Bool
  do_formula_enrichment : Option Bool
  do_code_enrichment : Option Bool
  table_structure_options : Option TableStructureOptions
  ocr_options : Option OcrOptions
  accelerator_options : AcceleratorOptions
  images_scale : Option ℚ
  document_timeout : Option ℚ
  deriving DecidableEq

/-- build_pipeline_options (conversion_utils.py lines 118-202). -/
def build_pipeline_options (sch : DoclingSchema) (settings : Settings) :
    Option PdfPipelineOptions :=
  if sch.docling_available = false then none
  else
    let ocr_opts : Option OcrOptions :=
      if sch.ocr_options_available = true ∧ settings.enable_ocr.getD false = true then
        let ocr_engine := settings.ocr_engine.getD "RapidOCR"
        let lang := settings.ocr_language.getD "en"
        let force_full_page := settings.force_full_page_ocr.getD true
        let confidence := settings.ocr_confidence.getD 0.8
        if ocr_engine = "EasyOCR" then
          some (.easyOcr [lang] force_full_page confidence)
        else if ocr_engine = "RapidOCR" ∨ ocr_engine = "Auto" then
          some (.rapidOcr [lang] force_full_page)
        else if ocr_engine = "OcrMac" ∧ sch.ocrmac_available = true then
          some (.ocrMac lang force_full_page)
        else none
      else none
    let timeout := settings.document_timeout.getD 0
    some
      { do_ocr := settings.enable_ocr.getD true
        do_table_structure := settings.do_table_structure.getD true
        do_picture_classification := settings.do_picture_classification.getD true
        do_picture_description := settings.do_picture_description.getD false
        generate_page_images := settings.generate_page_images.getD false
        generate_picture_images := settings.generate_picture_images.getD false
        generate_table_images := settings.generate_table_images.getD false
        do_formula_enrichment :=
          if sch.has_formula_enrichment = true then
            some (settings.do_formula_enrichment.getD true)
          else none
        do_code_enrichment :=
          if sch.has_code_enrichment = true then
            some (settings.do_code_enrichment.getD true)
          else none
        table_structure_options :=
          if sch.has_table_structure_options = true then
            some { mode := if settings.table_mode = some "Fast" then .fast else .accurate
                   do_cell_matching := settings.do_cell_matching.getD true }
          else none
        ocr_options := ocr_opts
        accelerator_options :=
          { device := settings.device.getD "cpu"
            num_threads := settings.num_threads.getD 4
            cuda_use_flash_attention2 :=
              if sch.has_flash_attention = true then
                some (settings.use_flash_attention.getD false)
              else none }
        images_scale :=
          if sch.has_images_scale = true then some (settings.images_scale.getD 1.0)
          else none
        document_timeout :=
          if timeout > 0 ∧ sch.has_document_timeout = true then some (timeout : ℚ)
          else none }

/-! ### docling_gui.py -/

/-- The option defaults DoclingGUI.init_variables sets (docling_gui.py
lines 137-180), restricted to the keys build_pipeline_options reads.
These are the defaults the comment at conversion_utils.py line 130 claims
build_pipeline_options falls back to. -/
def init_variables : Settings :=
  { enable_ocr := some true
    do_table_structure := some true
    do_picture_classification := some true
    do_picture_description := some false
    generate_page_images := some false
    generate_picture_images := some false
    generate_table_images := some false
    do_formula_enrichment := some true
    do_code_enrichment := some true
    table_mode := some "Accurate"
    do_cell_matching := some true
    ocr_engine := some "RapidOCR"
    ocr_language := some "en"
    force_full_page_ocr := some false
    ocr_confidence := some 0.5
    device := some "auto"
    num_threads := some 4
    use_flash_attention := some false
    images_scale := some 1.0
    document_timeout := some 0 }

/-- add_file_to_list (docling_gui.py lines 341-353) acting on the stored
file list: dedup check first, then the extension allow-list check.
add_files, add_folder and on_drop all insert through this function. -/
def add_file_to_list (file_list : List String) (filepath : String) : List String :=
  if filepath ∈ file_list then file_list
  else if splitextExtLower filepath ∈ SUPPORTED_EXTENSIONS then file_list ++ [filepath]
  else file_list

/-- The operations of the interactive thread that mutate the file list. -/
inductive FileOp where
  | addFile (filepath : String)
  | removeSelected (selection : List Nat)
  | clearFiles

/-- One file-list operation: addFile is add_file_to_list; removeSelected
deletes the selected indices from last to first as remove_selected does;
clearFiles empties the list as clear_files does. -/
def applyFileOp (file_list : List String) : FileOp → List String
  | .addFile p => add_file_to_list file_list p
  | .removeSelected sel => sel.reverse.foldl (fun acc i => acc.eraseIdx i) file_list
  | .clearFiles => []

/-- A whole interactive session on the file list, starting empty. -/
def applyFileOps (ops : List FileOp) : List String :=
  ops.foldl applyFileOp []

/-- The invariant the spec states for the file list. -/
def fileListOk (file_list : List String) : Prop :=
  file_list.Nodup ∧ ∀ f ∈ file_list, splitextExtLower f ∈ SUPPORTED_EXTENSIONS

/-- The per-run counters, per-file records and progress reports the
conversion worker accumulates. -/
structure RunState where
  successful : Nat
  failed : Nat
  processed : List String
  failures : List (String × String)
  progress : List ℚ

/-- The state a run starts from. -/
def initRunState : RunState := ⟨0, 0, [], [], []⟩

/-- The per-file loop of conversion_worker (docling_gui.py lines 590-645):
check the cancellation flag before each file; try the whole convert,
path-resolution, export and write step, counted as one success or, on any
exception, one failure with the error message; report fractional progress
after every file. convert i f is the outcome of that try block for the
i-th file: ok with the exported content, or error with the message of the
exception. cancelled i is the value of the flag the worker reads at the
i-th boundary check. -/
def conversion_step (convert : Nat → String → Except String String) (total : Nat)
    (i : Nat) (f : String) (st : RunState) : RunState :=
  let st1 :=
    match convert i f with
    | .ok _ =>
      { st with successful := st.successful + 1, processed := st.processed ++ [f] }
    | .error e =>
      { st with failed := st.failed + 1, processed := st.processed ++ [f],
                failures := st.failures ++ [(f, e)] }
  { st1 with progress := st1.progress ++ [((i + 1 : Nat) : ℚ) / (total : ℚ) * 100] }

/-- The file-iteration of conversion_worker: the cancellation flag is read
before each file, and when it is set the loop stops without touching the
remaining files. -/
def conversion_loop (convert : Nat → String → Except String String)
    (cancelled : Nat → Bool) (total : Nat) :
    Nat → List String → RunState → RunState
  | _, [], st => st
  | i, f :: rest, st =>
    if cancelled i then st
    else conversion_loop convert cancelled total (i + 1) rest
      (conversion_step convert total i f st)

/-- A whole conversion run over a file list. -/
def run_conversion (convert : Nat → String → Except String String)
    (cancelled : Nat → Bool) (files : List String) : RunState :=
  conversion_loop convert cancelled files.length 0 files initRunState

/-- One decimal digit character. -/
def digitChar (n : Nat) : Char :=
  match n % 10 with
  | 0 => '0'
  | 1 => '1'
  | 2 => '2'
  | 3 => '3'
  | 4 => '4'
  | 5 => '5'
  | 6 => '6'
  | 7 => '7'
  | 8 => '8'
  | _ => '9'

/-- Two-digit zero-padded rendering, as strftime renders in-range month,
day, hour, minute and second fields. -/
def pad2 (n : Nat) : String :=
  String.mk [digitChar (n / 10), digitChar n]

/-- Four-digit zero-padded rendering, as strftime renders the year of a
datetime (always between 1 and 9999). -/
def pad4 (n : Nat) : String :=
  String.mk [digitChar (n / 1000), digitChar (n / 100), digitChar (n / 10), digitChar n]

/-- A datetime value as the worker reads it from datetime.now(). -/
structure PyDateTime where
  year : Nat
  month : Nat
  day : Nat
  hour : Nat
  minute : Nat
  second : Nat

/-- strftime with format %Y%m%d_%H%M%S (docling_gui.py line 621). -/
def strftime_timestamp (t : PyDateTime) : String :=
  pad4 t.year ++ pad2 t.month ++ pad2 t.day ++ "_" ++
    pad2 t.hour ++ pad2 t.minute ++ pad2 t.second

/-- The YYYYMMDD_HHMMSS shape: fifteen characters, eight digits, an
underscore, six digits. -/
def timestampPattern (s : String) : Bool :=
  s.data.length = 15 && (s.data.take 8).all Char.isDigit &&
    (match s.data.drop 8 with
     | '_' :: rest => rest.all Char.isDigit
     | _ => false)

/-- Output-path resolution of conversion_worker (docling_gui.py lines
616-624): the initial path inside the output directory, replaced by a
timestamped one when the file exists and overwriting is off. fsExists is
the os.path.exists oracle and ts the strftime timestamp of the moment. -/
def compute_output_path (fsExists : String → Bool) (overwrite : Bool)
    (output_dir base_name output_ext ts : String) : String :=
  let output_path := os_path_join output_dir (base_name ++ output_ext)
  if fsExists output_path && !overwrite then
    os_path_join output_dir (base_name ++ "_" ++ ts ++ output_ext)
  else output_path

/-- The interactive controls the worker finally restores. -/
structure UIState where
  is_converting : Bool
  convert_selected_enabled : Bool
  convert_all_enabled : Bool
  cancel_enabled : Bool
  status : String

/-- conversion_finished (docling_gui.py lines 665-670): restore both
convert buttons, disable cancel, reset the status text. -/
def conversion_finished (st : UIState) : UIState :=
  { st with convert_selected_enabled := true, convert_all_enabled := true,
            cancel_enabled := false, status := "Ready" }

/-- The except and finally clauses wrapped around the worker body
(docling_gui.py lines 653-658): body is the outcome of the try block, ok
with the final run state or error when an exception escaped the per-file
handler; either way the converting flag is cleared and
conversion_finished is scheduled, and an escaped exception is logged. -/
def conversion_worker_wrapup (body : Except String RunState) (st : UIState) :
    UIState × List String :=
  match body with
  | .ok _ => (conversion_finished { st with is_converting := false }, [])
  | .error e =>
    (conversion_finished { st with is_converting := false }, ["Conversion error: " ++ e])

/-! ### Concrete records used by the closed theorems -/

/-- A schema with every import present and every optional field declared. -/
def fullSchema : DoclingSchema :=
  ⟨true, true, true, true, true, true, true, true, true⟩

/-- A schema whose external library failed to import. -/
def noDoclingSchema : DoclingSchema :=
  ⟨false, true, true, true, true, true, true, true, true⟩

/-- A schema with the library present but no optional field declared. -/
def bareSchema : DoclingSchema :=
  ⟨true, true, false, false, false, false, false, false, false⟩

/-- A settings record with every key missing. -/
def emptySettings : Settings :=
  ⟨none, none, none, none, none, none, none, none, none, none,
   none, none, none, none, none, none, none, none, none, none⟩

/-- The failing input of claim C1: OCR enabled, engine EasyOCR, and the
keys force_full_page_ocr, ocr_confidence and device missing. -/
def c1Settings : Settings :=
  { emptySettings with enable_ocr := some true, ocr_engine := some "EasyOCR" }

/-- A settings record selecting an OCR engine outside the recognized set. -/
def tesseractSettings : Settings :=
  { emptySettings with enable_ocr := some true, ocr_engine := some "Tesseract" }

/-- A sample converted document for the closed theorems. -/
def sampleDoc : DoclingDocument :=
  { export_to_markdown := "# Hello"
    export_to_html := "<h1>Hello</h1>"
    json_dump := "[1, 2]"
    export_to_doctags := some "<doctag>Hello</doctag>" }

/-! ## Theorems -/

/-- Claim C10: for every format name outside the recognized set (Markdown,
HTML, JSON, DocTags, Text), get_output_extension returns ".txt" and
export_content returns the Markdown export of the document; both functions
are total over arbitrary format-name strings by construction. -/
theorem claim_C10 (format_name : String) (doc : DoclingDocument)
    (h1 : format_name ≠ "Markdown") (h2 : format_name ≠ "HTML")
    (h3 : format_name ≠ "JSON") (h4 : format_name ≠ "DocTags")
    (h5 : format_name ≠ "Text") :
    get_output_extension format_name = ".txt" ∧
    export_content doc format_name = doc.export_to_markdown := by
  constructor
  · simp [get_output_extension, h1, h2, h3, h4, h5]
  · simp [export_content, h1, h2, h3, h4, h5]

/-- Witness for claim C10 at the unrecognized format name PDF. -/
theorem claim_C10_witness :
    get_output_extension "PDF" = ".txt" ∧
    export_content sampleDoc "PDF" = sampleDoc.export_to_markdown :=
  claim_C10 "PDF" sampleDoc (by decide) (by decide) (by decide) (by decide) (by decide)

/-- Claim C4: build_pipeline_options is total; with the library absent it
returns none, otherwise it always returns a configuration, and each
optional refinement (formula and code enrichment, the table sub-object
holding sub-mode and cell matching, the flash-attention flag, image scale,
document timeout) is left unset whenever the schema lacks the field. -/
theorem claim_C4 (sch : DoclingSchema) (s : Settings) :
    (sch.docling_available = false → build_pipeline_options sch s = none) ∧
    (sch.docling_available = true → (build_pipeline_options sch s).isSome = true) ∧
    (sch.has_formula_enrichment = false →
      (build_pipeline_options sch s).bind (fun p => p.do_formula_enrichment) = none) ∧
    (sch.has_code_enrichment = false →
      (build_pipeline_options sch s).bind (fun p => p.do_code_enrichment) = none) ∧
    (sch.has_table_structure_options = false →
      (build_pipeline_options sch s).bind (fun p => p.table_structure_options) = none) ∧
    (sch.has_flash_attention = false →
      (build_pipeline_options sch s).bind
        (fun p => p.accelerator_options.cuda_use_flash_attention2) = none) ∧
    (sch.has_images_scale = false →
      (build_pipeline_options sch s).bind (fun p => p.images_scale) = none) ∧
    (sch.has_document_timeout = false →
      (build_pipeline_options sch s).bind (fun p => p.document_timeout) = none) := by
  cases hav : sch.docling_available with
  | false =>
    refine ⟨fun _ => ?_, fun h => ?_, fun _ => ?_, fun _ => ?_, fun _ => ?_,
      fun _ => ?_, fun _ => ?_, fun _ => ?_⟩ <;>
      simp_all [build_pipeline_options]
  | true =>
    refine ⟨fun h => ?_, fun _ => ?_, fun h => ?_, fun h => ?_, fun h => ?_,
      fun h => ?_, fun h => ?_, fun h => ?_⟩ <;>
      simp_all [build_pipeline_options]

/-- Witness for claim C4: with the library absent the builder returns
none; with a bare schema it still returns a configuration whose optional
refinements are all left unset. -/
theorem claim_C4_witness :
    build_pipeline_options noDoclingSchema emptySettings = none ∧
    (build_pipeline_options bareSchema emptySettings).isSome = true ∧
    (build_pipeline_options bareSchema emptySettings).bind
      (fun p => p.do_formula_enrichment) = none ∧
    (build_pipeline_options bareSchema emptySettings).bind
      (fun p => p.table_structure_options) = none ∧
    (build_pipeline_options bareSchema emptySettings).bind
      (fun p => p.images_scale) = none ∧
    (build_pipeline_options bareSchema emptySettings).bind
      (fun p => p.document_timeout) = none :=
  ⟨(claim_C4 noDoclingSchema emptySettings).1 rfl,
   (claim_C4 bareSchema emptySettings).2.1 rfl,
   (claim_C4 bareSchema emptySettings).2.2.1 rfl,
   (claim_C4 bareSchema emptySettings).2.2.2.2.1 rfl,
   (claim_C4 bareSchema emptySettings).2.2.2.2.2.2.1 rfl,
   (claim_C4 bareSchema emptySettings).2.2.2.2.2.2.2 rfl⟩

/-- Claim C5: for every settings record whose ocr_engine value is outside
the recognized set (EasyOCR, RapidOCR, Auto, and OcrMac when that import
is available), the built configuration carries no OCR options object. -/
theorem claim_C5 (sch : DoclingSchema) (s : Settings) (engine : String)
    (he : s.ocr_engine = some engine)
    (h1 : engine ≠ "EasyOCR") (h2 : engine ≠ "RapidOCR") (h3 : engine ≠ "Auto")
    (h4 : engine = "OcrMac" → sch.ocrmac_available = false) :
    (build_pipeline_options sch s).bind (fun p => p.ocr_options) = none := by
  cases hav : sch.docling_available with
  | false => simp [build_pipeline_options, hav]
  | true =>
    by_cases hmac : engine = "OcrMac"
    · have hm := h4 hmac
      simp [build_pipeline_options, hav, he, h1, h2, h3, hmac, hm]
    · simp [build_pipeline_options, hav, he, h1, h2, h3, hmac]

/-- Witness for claim C5 at the unrecognized engine name Tesseract. -/
theorem claim_C5_witness :
    (build_pipeline_options fullSchema tesseractSettings).bind
      (fun p => p.ocr_options) = none :=
  claim_C5 fullSchema tesseractSettings "Tesseract" rfl (by decide) (by decide)
    (by decide) (fun h => absurd h (by decide))

/-- Claim C1 (evidence for the divergence): on a settings record missing
the force_full_page_ocr, ocr_confidence and device keys, the builder falls
back to force_full_page_ocr true, confidence 0.8 and device cpu, while the
init_variables defaults the comment at conversion_utils.py line 130 claims
to match are false, 0.5 and auto. -/
theorem claim_C1_code_defaults :
    (build_pipeline_options fullSchema c1Settings).map
        (fun p => (p.ocr_options, p.accelerator_options.device)) =
      some (some (.easyOcr ["en"] true 0.8), "cpu") ∧
    init_variables.force_full_page_ocr = some false ∧
    init_variables.ocr_confidence = some 0.5 ∧
    init_variables.device = some "auto" ∧
    (0.8 : ℚ) ≠ (0.5 : ℚ) ∧ ("cpu" : String) ≠ "auto" ∧ (true : Bool) ≠ false := by
  refine ⟨?_, rfl, rfl, rfl, by norm_num, by decide, by decide⟩
  rfl

/-- Claim C9: whatever the outcome of the worker body, the run ends with
the converting flag cleared, both convert buttons enabled, the cancel
button disabled and the status reset to Ready. -/
theorem claim_C9 (body : Except String RunState) (st : UIState) :
    (conversion_worker_wrapup body st).1.is_converting = false ∧
    (conversion_worker_wrapup body st).1.convert_selected_enabled = true ∧
    (conversion_worker_wrapup body st).1.convert_all_enabled = true ∧
    (conversion_worker_wrapup body st).1.cancel_enabled = false ∧
    (conversion_worker_wrapup body st).1.status = "Ready" := by
  cases body <;> simp [conversion_worker_wrapup, conversion_finished]

/-- Every character digitChar produces is a decimal digit. -/
theorem digitChar_isDigit (n : Nat) : (digitChar n).isDigit = true := by
  unfold digitChar
  have h : n % 10 = 0 ∨ n % 10 = 1 ∨ n % 10 = 2 ∨ n % 10 = 3 ∨ n % 10 = 4 ∨
      n % 10 = 5 ∨ n % 10 = 6 ∨ n % 10 = 7 ∨ n % 10 = 8 ∨ n % 10 = 9 := by omega
  rcases h with h|h|h|h|h|h|h|h|h|h <;> rw [h] <;> rfl

/-- Every strftime %Y%m%d_%H%M%S output has the YYYYMMDD_HHMMSS shape. -/
theorem timestampPattern_strftime (t : PyDateTime) :
    timestampPattern (strftime_timestamp t) = true := by
  simp [timestampPattern, strftime_timestamp, pad4, pad2, String.data_append,
    digitChar_isDigit]

/-- Claim C6: when the initially computed output path exists and overwrite
is off, the final path is the timestamped one, differs from the initial
path, and its timestamp matches the YYYYMMDD_HHMMSS pattern. -/
theorem claim_C6 (fsExists : String → Bool) (overwrite : Bool)
    (output_dir base_name output_ext : String) (t : PyDateTime)
    (hex : fsExists (os_path_join output_dir (base_name ++ output_ext)) = true)
    (hov : overwrite = false) :
    compute_output_path fsExists overwrite output_dir base_name output_ext
        (strftime_timestamp t) ≠ os_path_join output_dir (base_name ++ output_ext) ∧
    compute_output_path fsExists overwrite output_dir base_name output_ext
        (strftime_timestamp t) =
      os_path_join output_dir
        (base_name ++ "_" ++ strftime_timestamp t ++ output_ext) ∧
    timestampPattern (strftime_timestamp t) = true := by
  have hts : (strftime_timestamp t).data.length = 15 := by
    simp [strftime_timestamp, pad4, pad2, String.data_append]
  have heq : compute_output_path fsExists overwrite output_dir base_name output_ext
      (strftime_timestamp t) =
      os_path_join output_dir
        (base_name ++ "_" ++ strftime_timestamp t ++ output_ext) := by
    simp [compute_output_path, hex, hov]
  refine ⟨?_, heq, timestampPattern_strftime t⟩
  rw [heq]
  intro hcontra
  have hlen2 : (base_name ++ "_" ++ strftime_timestamp t ++ output_ext).data.length =
      (base_name ++ output_ext).data.length + 16 := by
    simp [String.data_append, hts]
    omega
  by_cases h2 : (base_name ++ "_" ++ strftime_timestamp t ++ output_ext).data.head? =
      some '/'
  · have h1 : (base_name ++ output_ext).data.head? = some '/' := by
      rcases hB : base_name.data with _ | ⟨c, bs⟩
      · exfalso
        simp [String.data_append, hB] at h2
      · simp only [String.data_append, hB, List.cons_append, List.head?_cons] at h2 ⊢
        exact h2
    simp only [os_path_join] at hcontra
    rw [if_pos h2, if_pos h1] at hcontra
    have := congrArg (fun s => s.data.length) hcontra
    simp only at this
    omega
  · by_cases h1 : (base_name ++ output_ext).data.head? = some '/'
    · simp only [os_path_join] at hcontra
      rw [if_neg h2, if_pos h1] at hcontra
      by_cases hd : output_dir = "" ∨ output_dir.data.getLast? = some '/'
      · rw [if_pos hd] at hcontra
        have := congrArg (fun s => s.data.length) hcontra
        simp only [String.data_append, List.length_append] at this
        omega
      · rw [if_neg hd] at hcontra
        have := congrArg (fun s => s.data.length) hcontra
        simp only [String.data_append, List.length_append] at this
        omega
    · simp only [os_path_join] at hcontra
      rw [if_neg h2, if_neg h1] at hcontra
      by_cases hd : output_dir = "" ∨ output_dir.data.getLast? = some '/'
      · rw [if_pos hd, if_pos hd] at hcontra
        have := congrArg (fun s => s.data.length) hcontra
        simp only [String.data_append, List.length_append] at this
        omega
      · rw [if_neg hd, if_neg hd] at hcontra
        have := congrArg (fun s => s.data.length) hcontra
        simp only [String.data_append, List.length_append] at this
        omega

/-- Witness for claim C6 with an existing output file and a concrete
datetime. -/
theorem claim_C6_witness :
    compute_output_path (fun s => s == "/out/doc.md") false "/out" "doc" ".md"
        (strftime_timestamp ⟨2024, 1, 2, 3, 4, 5⟩) ≠
      os_path_join "/out" ("doc" ++ ".md") ∧
    compute_output_path (fun s => s == "/out/doc.md") false "/out" "doc" ".md"
        (strftime_timestamp ⟨2024, 1, 2, 3, 4, 5⟩) =
      os_path_join "/out"
        ("doc" ++ "_" ++ strftime_timestamp ⟨2024, 1, 2, 3, 4, 5⟩ ++ ".md") ∧
    timestampPattern (strftime_timestamp ⟨2024, 1, 2, 3, 4, 5⟩) = true :=
  claim_C6 (fun s => s == "/out/doc.md") false "/out" "doc" ".md"
    ⟨2024, 1, 2, 3, 4, 5⟩ (by decide) rfl

/-- Adding through add_file_to_list preserves the file-list invariant. -/
theorem fileListOk_add (l : List String) (p : String) (h : fileListOk l) :
    fileListOk (add_file_to_list l p) := by
  unfold add_file_to_list
  by_cases hmem : p ∈ l
  · rw [if_pos hmem]; exact h
  · rw [if_neg hmem]
    by_cases hext : splitextExtLower p ∈ SUPPORTED_EXTENSIONS
    · rw [if_pos hext]
      obtain ⟨hnd, hall⟩ := h
      refine ⟨?_, ?_⟩
      · simp [List.nodup_append, hnd, hmem]
      · intro f hf
        rcases List.mem_append.mp hf with hf | hf
        · exact hall f hf
        · simp only [List.mem_singleton] at hf
          subst hf
          exact hext
    · rw [if_neg hext]; exact h

/-- Deleting one index preserves the file-list invariant. -/
theorem fileListOk_eraseIdx (l : List String) (i : Nat) (h : fileListOk l) :
    fileListOk (l.eraseIdx i) := by
  obtain ⟨hnd, hall⟩ := h
  have hs : List.Sublist (l.eraseIdx i) l := List.eraseIdx_sublist l i
  exact ⟨hnd.sublist hs, fun f hf => hall f (hs.subset hf)⟩

/-- Deleting a whole selection preserves the file-list invariant. -/
theorem fileListOk_foldl_erase (sel : List Nat) :
    ∀ l : List String, fileListOk l →
      fileListOk (sel.foldl (fun acc i => acc.eraseIdx i) l) := by
  induction sel with
  | nil => intro l h; exact h
  | cons i rest ih =>
    intro l h
    exact ih _ (fileListOk_eraseIdx l i h)

/-- Every single file-list operation preserves the invariant. -/
theorem fileListOk_applyOp (l : List String) (op : FileOp) (h : fileListOk l) :
    fileListOk (applyFileOp l op) := by
  cases op with
  | addFile p => exact fileListOk_add l p h
  | removeSelected sel => exact fileListOk_foldl_erase sel.reverse l h
  | clearFiles =>
    exact ⟨List.nodup_nil, fun f hf => absurd hf (List.not_mem_nil f)⟩

/-- Claim C8: after every sequence of file-list operations starting from
the empty list, the list has no duplicate paths and every path has an
extension in the allow-list. -/
theorem claim_C8 (ops : List FileOp) : fileListOk (applyFileOps ops) := by
  have key : ∀ l, fileListOk l → fileListOk (ops.foldl applyFileOp l) := by
    induction ops with
    | nil => intro l h; exact h
    | cons op rest ih =>
      intro l h
      exact ih _ (fileListOk_applyOp l op h)
  exact key [] ⟨List.nodup_nil, fun f hf => absurd hf (List.not_mem_nil f)⟩

/-- Witness for claim C8 on a concrete run of operations. -/
theorem claim_C8_witness :
    fileListOk (applyFileOps
      [FileOp.addFile "/docs/a.pdf", FileOp.addFile "/docs/notes.txt",
       FileOp.addFile "/docs/a.pdf", FileOp.addFile "/docs/b.DOCX",
       FileOp.removeSelected [0], FileOp.clearFiles, FileOp.addFile "/x/c.mp3"]) :=
  claim_C8 [FileOp.addFile "/docs/a.pdf", FileOp.addFile "/docs/notes.txt",
       FileOp.addFile "/docs/a.pdf", FileOp.addFile "/docs/b.DOCX",
       FileOp.removeSelected [0], FileOp.clearFiles, FileOp.addFile "/x/c.mp3"]

/-- One processed file extends the processed list by exactly that file. -/
theorem conversion_step_processed (convert : Nat → String → Except String String)
    (total i : Nat) (f : String) (st : RunState) :
    (conversion_step convert total i f st).processed = st.processed ++ [f] := by
  cases hcv : convert i f <;> simp [conversion_step, hcv]

/-- One processed file is counted exactly once, as a success or a failure. -/
theorem conversion_step_counts (convert : Nat → String → Except String String)
    (total i : Nat) (f : String) (st : RunState) :
    (conversion_step convert total i f st).successful +
      (conversion_step convert total i f st).failed =
    st.successful + st.failed + 1 := by
  cases hcv : convert i f <;> simp [conversion_step, hcv] <;> omega

/-- One processed file appends its failure record exactly when its try
block raised, keeping the error message. -/
theorem conversion_step_failures (convert : Nat → String → Except String String)
    (total i : Nat) (f : String) (st : RunState) :
    (conversion_step convert total i f st).failures =
      st.failures ++ (match convert i f with
        | .ok _ => []
        | .error e => [(f, e)]) := by
  cases hcv : convert i f <;> simp [conversion_step, hcv]

/-- One processed file reports exactly one fractional progress value. -/
theorem conversion_step_progress (convert : Nat → String → Except String String)
    (total i : Nat) (f : String) (st : RunState) :
    (conversion_step convert total i f st).progress =
      st.progress ++ [((i + 1 : Nat) : ℚ) / (total : ℚ) * 100] := by
  cases hcv : convert i f <;> simp [conversion_step, hcv]

/-- The loop under a flag that turns true at the k-th boundary check:
exactly the first k files are appended to the processed list and counted. -/
theorem conversion_loop_cancel (convert : Nat → String → Except String String)
    (cancelled : Nat → Bool) (total : Nat) :
    ∀ (fs : List String) (k i : Nat) (st : RunState), k ≤ fs.length →
      (∀ j, j < k → cancelled (i + j) = false) → cancelled (i + k) = true →
      (conversion_loop convert cancelled total i fs st).processed =
          st.processed ++ fs.take k ∧
      (conversion_loop convert cancelled total i fs st).successful +
          (conversion_loop convert cancelled total i fs st).failed =
        st.successful + st.failed + k := by
  intro fs
  induction fs with
  | nil =>
    intro k i st hk _ _
    simp only [List.length_nil, Nat.le_zero] at hk
    subst hk
    simp [conversion_loop]
  | cons f rest ih =>
    intro k i st hk hb ha
    cases k with
    | zero =>
      have hc : cancelled i = true := by simpa using ha
      simp [conversion_loop, hc]
    | succ k' =>
      have hc : cancelled i = false := by
        have := hb 0 (Nat.succ_pos k')
        simpa using this
      have hb' : ∀ j, j < k' → cancelled (i + 1 + j) = false := by
        intro j hj
        have h := hb (j + 1) (by omega)
        have heq : i + (j + 1) = i + 1 + j := by omega
        rwa [heq] at h
      have ha' : cancelled (i + 1 + k') = true := by
        have heq : i + (k' + 1) = i + 1 + k' := by omega
        rwa [heq] at ha
      have hk' : k' ≤ rest.length := by
        simp only [List.length_cons] at hk
        omega
      obtain ⟨hp, hsum⟩ :=
        ih k' (i + 1) (conversion_step convert total i f st) hk' hb' ha'
      simp only [conversion_loop, hc, Bool.false_eq_true, if_false]
      refine ⟨?_, ?_⟩
      · rw [hp, conversion_step_processed]
        simp [List.take_succ_cons]
      · rw [hsum, conversion_step_counts]
        omega

/-- Claim C3: if cancellation is requested after file k (k at least one,
less than the list length), exactly the first k files are processed, the
success and failure counts sum to k, and the remaining files are exactly
the untouched tail of the list. -/
theorem claim_C3 (files : List String) (convert : Nat → String → Except String String)
    (cancelled : Nat → Bool) (k : Nat) (h1 : 1 ≤ k) (h2 : k < files.length)
    (hbefore : ∀ j, j < k → cancelled j = false) (hat : cancelled k = true) :
    (run_conversion convert cancelled files).processed = files.take k ∧
    (run_conversion convert cancelled files).processed.length = k ∧
    (run_conversion convert cancelled files).successful +
      (run_conversion convert cancelled files).failed = k ∧
    (run_conversion convert cancelled files).processed ++ files.drop k = files := by
  have hb0 : ∀ j, j < k → cancelled (0 + j) = false := by
    intro j hj
    simpa using hbefore j hj
  have ha0 : cancelled (0 + k) = true := by simpa using hat
  obtain ⟨hp, hsum⟩ := conversion_loop_cancel convert cancelled files.length files k 0
    initRunState (le_of_lt h2) hb0 ha0
  have hp' : (run_conversion convert cancelled files).processed = files.take k := by
    simpa [run_conversion, initRunState] using hp
  refine ⟨hp', ?_, ?_, ?_⟩
  · rw [hp']
    simp [List.length_take]
    omega
  · simpa [run_conversion, initRunState] using hsum
  · rw [hp']
    exact List.take_append_drop k files

/-- Witness for claim C3: three files, cancellation requested after the
first file; exactly one file is processed. -/
theorem claim_C3_witness :
    (run_conversion (fun _ _ => Except.ok "out") (fun i => decide (1 ≤ i))
        ["a.pdf", "b.pdf", "c.pdf"]).processed = ["a.pdf", "b.pdf", "c.pdf"].take 1 ∧
    (run_conversion (fun _ _ => Except.ok "out") (fun i => decide (1 ≤ i))
        ["a.pdf", "b.pdf", "c.pdf"]).processed.length = 1 ∧
    (run_conversion (fun _ _ => Except.ok "out") (fun i => decide (1 ≤ i))
        ["a.pdf", "b.pdf", "c.pdf"]).successful +
      (run_conversion (fun _ _ => Except.ok "out") (fun i => decide (1 ≤ i))
        ["a.pdf", "b.pdf", "c.pdf"]).failed = 1 ∧
    (run_conversion (fun _ _ => Except.ok "out") (fun i => decide (1 ≤ i))
        ["a.pdf", "b.pdf", "c.pdf"]).processed ++
      ["a.pdf", "b.pdf", "c.pdf"].drop 1 = ["a.pdf", "b.pdf", "c.pdf"] := by
  exact claim_C3 ["a.pdf", "b.pdf", "c.pdf"] (fun _ _ => Except.ok "out")
    (fun i => decide (1 ≤ i)) 1 (by decide) (by decide)
    (by intro j hj; interval_cases j; rfl) rfl

/-- The loop with the flag never set processes every file in order,
counts each exactly once, records exactly the failing files with their
messages, and reports one fractional progress value per file. -/
theorem conversion_loop_run (convert : Nat → String → Except String String)
    (total : Nat) :
    ∀ (fs : List String) (i : Nat) (st : RunState),
      (conversion_loop convert (fun _ => false) total i fs st).processed =
          st.processed ++ fs ∧
      (conversion_loop convert (fun _ => false) total i fs st).successful +
          (conversion_loop convert (fun _ => false) total i fs st).failed =
        st.successful + st.failed + fs.length ∧
      (conversion_loop convert (fun _ => false) total i fs st).failures =
          st.failures ++ (fs.enumFrom i).filterMap (fun q =>
            match convert q.1 q.2 with
            | .ok _ => none
            | .error e => some (q.2, e)) ∧
      (conversion_loop convert (fun _ => false) total i fs st).progress =
          st.progress ++ (List.range fs.length).map (fun j =>
            ((i + j + 1 : Nat) : ℚ) / (total : ℚ) * 100) := by
  intro fs
  induction fs with
  | nil => intro i st; simp [conversion_loop]
  | cons f rest ih =>
    intro i st
    obtain ⟨hp, hsum, hfail, hprog⟩ := ih (i + 1) (conversion_step convert total i f st)
    simp only [conversion_loop, Bool.false_eq_true, if_false]
    refine ⟨?_, ?_, ?_, ?_⟩
    · rw [hp, conversion_step_processed]
      simp
    · rw [hsum, conversion_step_counts]
      simp [List.length_cons]
      omega
    · rw [hfail, conversion_step_failures]
      simp only [List.enumFrom_cons, List.filterMap_cons]
      cases hcv : convert i f <;> simp [hcv, List.append_assoc]
    · rw [hprog, conversion_step_progress]
      have hrange : (List.range (rest.length + 1)).map (fun j =>
            ((i + j + 1 : Nat) : ℚ) / (total : ℚ) * 100) =
          (((i + 1 : Nat) : ℚ) / (total : ℚ) * 100) ::
            (List.range rest.length).map (fun j =>
              ((i + 1 + j + 1 : Nat) : ℚ) / (total : ℚ) * 100) := by
        rw [List.range_succ_eq_map, List.map_cons, List.map_map]
        refine congrArg₂ _ (by norm_num) ?_
        refine List.map_congr_left ?_
        intro a _
        simp only [Function.comp_apply]
        have heq : i + (a + 1) + 1 = i + 1 + a + 1 := by omega
        rw [heq]
      rw [List.length_cons, hrange, List.append_assoc, List.singleton_append]

/-- Claim C7: with cancellation never requested, every file is processed
even after failures, each is counted exactly once, each failing file is
recorded with its error message, and progress (files completed over total
times 100) is reported after each file whether it succeeded or failed. -/
theorem claim_C7 (files : List String) (convert : Nat → String → Except String String) :
    (run_conversion convert (fun _ => false) files).processed = files ∧
    (run_conversion convert (fun _ => false) files).successful +
      (run_conversion convert (fun _ => false) files).failed = files.length ∧
    (run_conversion convert (fun _ => false) files).failures =
      files.enum.filterMap (fun q =>
        match convert q.1 q.2 with
        | .ok _ => none
        | .error e => some (q.2, e)) ∧
    (run_conversion convert (fun _ => false) files).progress =
      (List.range files.length).map (fun j =>
        ((j + 1 : Nat) : ℚ) / ((files.length : Nat) : ℚ) * 100) := by
  obtain ⟨hp, hsum, hfail, hprog⟩ :=
    conversion_loop_run convert files.length files 0 initRunState
  refine ⟨?_, ?_, ?_, ?_⟩
  · simpa [run_conversion, initRunState] using hp
  · simpa [run_conversion, initRunState] using hsum
  · rw [run_conversion, hfail]
    simp [initRunState, List.enum]
  · rw [run_conversion, hprog]
    simp [initRunState]

/-- A character different from the head and absent from the tail is absent
from the list. -/
theorem nmem_cons {c d : Char} {l : List Char} (h1 : c ≠ d) (h2 : c ∉ l) :
    c ∉ d :: l := by
  simp [List.mem_cons, h1, h2]

/-- A character absent from both parts is absent from the concatenation. -/
theorem nmem_append {c : Char} {l1 l2 : List Char} (h1 : c ∉ l1) (h2 : c ∉ l2) :
    c ∉ l1 ++ l2 := by
  simp [List.mem_append, h1, h2]

/-- A character whose plainChar test fails is absent from an all-plain list. -/
theorem plain_no {l : List Char} (h : l.all plainChar = true) {c : Char}
    (hc : plainChar c = false) : c ∉ l := by
  intro hmem
  have := List.all_eq_true.mp h c hmem
  rw [hc] at this
  exact Bool.false_ne_true this

/-- Plain characters are not newlines. -/
theorem plain_ne_nl {c : Char} (h : plainChar c = true) : c ≠ '\n' := by
  intro hc
  subst hc
  simp [plainChar] at h

/-- Away from a line start, a newline-free list passes the heading
substitution unchanged. -/
theorem stripHeadings_false_id (l : List Char) (h : '\n' ∉ l) :
    stripHeadings false l = l := by
  induction l with
  | nil => simp [stripHeadings]
  | cons c rest ih =>
    have hc : c ≠ '\n' := fun hc => h (hc ▸ List.mem_cons_self c rest)
    simp only [stripHeadings]
    rw [dif_neg (by simp)]
    rw [decide_eq_false hc]
    exact congrArg (c :: ·) (ih fun hm => h (List.mem_cons_of_mem c hm))

/-- A newline-free list not starting with a hash passes the heading
substitution unchanged even at a line start. -/
theorem stripHeadings_true_id (l : List Char) (h : '\n' ∉ l)
    (hh : l.head? ≠ some '#') : stripHeadings true l = l := by
  cases l with
  | nil => simp [stripHeadings]
  | cons c rest =>
    have hc : c ≠ '#' := by simpa using hh
    have hcn : c ≠ '\n' := fun hcn => h (hcn ▸ List.mem_cons_self c rest)
    simp only [stripHeadings]
    rw [dif_neg (by simp [countHashes, hc])]
    rw [decide_eq_false hcn]
    exact congrArg (c :: ·)
      (stripHeadings_false_id rest fun hm => h (List.mem_cons_of_mem c hm))

/-- A list with no adjacent asterisk pair passes the bold substitution
unchanged. -/
theorem stripBold_id (l : List Char) (h : noDoubleStar l = true) :
    stripBold l = l := by
  induction l with
  | nil => simp [stripBold]
  | cons c rest ih =>
    cases rest with
    | nil => simp [stripBold]
    | cons d r =>
      rw [noDoubleStar] at h
      have hcd : ¬(c = '*' ∧ d = '*') := by
        intro ⟨h1, h2⟩
        simp [h1, h2] at h
      have htail : noDoubleStar (d :: r) = true := ((Bool.and_eq_true _ _).mp h).2
      simp only [stripBold]
      rw [if_neg hcd]
      exact congrArg (c :: ·) (ih htail)

/-- An asterisk-free list passes the italic substitution unchanged. -/
theorem stripItalic_id (l : List Char) (h : '*' ∉ l) : stripItalic l = l := by
  induction l with
  | nil => simp [stripItalic]
  | cons c rest ih =>
    have hc : c ≠ '*' := fun hc => h (hc ▸ List.mem_cons_self c rest)
    simp only [stripItalic]
    rw [if_neg hc]
    exact congrArg (c :: ·) (ih fun hm => h (List.mem_cons_of_mem c hm))

/-- A list where no exclamation mark is followed by a bracket passes the
image substitution unchanged. -/
theorem stripImages_id (l : List Char) (h : noImgStart l = true) :
    stripImages l = l := by
  induction l with
  | nil => simp [stripImages]
  | cons c rest ih =>
    cases rest with
    | nil => simp [stripImages]
    | cons d r =>
      rw [noImgStart] at h
      have hcd : ¬(c = '!' ∧ d = '[') := by
        intro ⟨h1, h2⟩
        simp [h1, h2] at h
      have htail : noImgStart (d :: r) = true := ((Bool.and_eq_true _ _).mp h).2
      simp only [stripImages]
      rw [if_neg hcd]
      exact congrArg (c :: ·) (ih htail)

/-- A bracket-free list passes the link substitution unchanged. -/
theorem stripLinks_id (l : List Char) (h : '[' ∉ l) : stripLinks l = l := by
  induction l with
  | nil => simp [stripLinks]
  | cons c rest ih =>
    have hc : c ≠ '[' := fun hc => h (hc ▸ List.mem_cons_self c rest)
    simp only [stripLinks]
    rw [if_neg hc]
    exact congrArg (c :: ·) (ih fun hm => h (List.mem_cons_of_mem c hm))

/-- An asterisk-free list has no adjacent asterisk pair. -/
theorem noDoubleStar_of_nmem (l : List Char) (h : '*' ∉ l) :
    noDoubleStar l = true := by
  induction l with
  | nil => rfl
  | cons c rest ih =>
    cases rest with
    | nil => rfl
    | cons d r =>
      have hc : c ≠ '*' := fun hc => h (hc ▸ List.mem_cons_self c (d :: r))
      rw [noDoubleStar]
      simp only [Bool.and_eq_true, Bool.not_eq_true']
      refine ⟨by simp [hc], ih fun hm => h (List.mem_cons_of_mem c hm)⟩

/-- An exclamation-free list has no image start. -/
theorem noImgStart_of_nmem (l : List Char) (h : '!' ∉ l) :
    noImgStart l = true := by
  induction l with
  | nil => rfl
  | cons c rest ih =>
    cases rest with
    | nil => rfl
    | cons d r =>
      have hc : c ≠ '!' := fun hc => h (hc ▸ List.mem_cons_self c (d :: r))
      rw [noImgStart]
      simp only [Bool.and_eq_true, Bool.not_eq_true']
      refine ⟨by simp [hc], ih fun hm => h (List.mem_cons_of_mem c hm)⟩

/-- An asterisk-free nonempty list wrapped in single asterisks has no
adjacent asterisk pair. -/
theorem noDoubleStar_wrap (l : List Char) (h : '*' ∉ l) (hne : l ≠ []) :
    noDoubleStar ('*' :: (l ++ ['*'])) = true := by
  have aux : ∀ m : List Char, '*' ∉ m → noDoubleStar (m ++ ['*']) = true := by
    intro m
    induction m with
    | nil => intro _; rfl
    | cons c cs ih =>
      intro hm
      have hc : c ≠ '*' := fun hc => hm (hc ▸ List.mem_cons_self c cs)
      cases cs with
      | nil =>
        simp only [List.cons_append, List.nil_append, noDoubleStar]
        simp [hc]
      | cons d r =>
        simp only [List.cons_append, noDoubleStar]
        simp only [Bool.and_eq_true, Bool.not_eq_true']
        refine ⟨by simp [hc], ?_⟩
        have := ih fun hmm => hm (List.mem_cons_of_mem c hmm)
        simpa [List.cons_append] using this
  cases l with
  | nil => exact absurd rfl hne
  | cons c cs =>
    have hc : c ≠ '*' := fun hc => h (hc ▸ List.mem_cons_self c cs)
    simp only [List.cons_append, noDoubleStar]
    simp only [Bool.and_eq_true, Bool.not_eq_true']
    refine ⟨by simp [hc], ?_⟩
    have := aux (c :: cs) h
    simpa [List.cons_append] using this

/-- The bold closing search on plain content followed by a double
asterisk finds exactly that content. -/
theorem findBoldClose_append (t r : List Char) (ht : t.all plainChar = true)
    (hne : t ≠ []) : findBoldClose (t ++ '*' :: '*' :: r) = some (t, r) := by
  induction t with
  | nil => exact absurd rfl hne
  | cons c cs ih =>
    have hc : plainChar c = true := List.all_eq_true.mp ht c (List.mem_cons_self c cs)
    have hcn : c ≠ '\n' := plain_ne_nl hc
    have hcs : cs.all plainChar = true := by
      rw [List.all_eq_true]
      intro x hx
      exact List.all_eq_true.mp ht x (List.mem_cons_of_mem c hx)
    cases cs with
    | nil =>
      rw [List.cons_append, List.nil_append, findBoldClose.eq_2]
      rw [if_neg hcn, if_pos (by simp)]
      rfl
    | cons c2 cs' =>
      have hc2 : plainChar c2 = true :=
        List.all_eq_true.mp hcs c2 (List.mem_cons_self c2 cs')
      have hc2s : c2 ≠ '*' := by
        intro hx
        subst hx
        simp [plainChar] at hc2
      rw [List.cons_append, findBoldClose.eq_2]
      rw [if_neg hcn, if_neg (by simp [hc2s]), ih hcs (by simp)]
      rfl

/-- The italic closing search on plain content followed by one asterisk
finds exactly that content. -/
theorem findItalicClose_append (t r : List Char) (ht : t.all plainChar = true)
    (hne : t ≠ []) : findItalicClose (t ++ '*' :: r) = some (t, r) := by
  induction t with
  | nil => exact absurd rfl hne
  | cons c cs ih =>
    have hc : plainChar c = true := List.all_eq_true.mp ht c (List.mem_cons_self c cs)
    have hcn : c ≠ '\n' := plain_ne_nl hc
    have hcs : cs.all plainChar = true := by
      rw [List.all_eq_true]
      intro x hx
      exact List.all_eq_true.mp ht x (List.mem_cons_of_mem c hx)
    cases cs with
    | nil =>
      rw [List.cons_append, List.nil_append, findItalicClose.eq_2]
      rw [if_neg hcn, if_pos (by simp)]
      rfl
    | cons c2 cs' =>
      have hc2 : plainChar c2 = true :=
        List.all_eq_true.mp hcs c2 (List.mem_cons_self c2 cs')
      have hc2s : c2 ≠ '*' := by
        intro hx
        subst hx
        simp [plainChar] at hc2
      rw [List.cons_append, findItalicClose.eq_2]
      rw [if_neg hcn, if_neg (by simp [hc2s]), ih hcs (by simp)]
      rfl

/-- The lazy parenthesis search on plain content followed by a closing
parenthesis consumes exactly up to that parenthesis. -/
theorem findParenClose_append (b r : List Char) (hb : b.all plainChar = true) :
    findParenClose (b ++ ')' :: r) = some r := by
  induction b with
  | nil =>
    rw [List.nil_append, findParenClose.eq_2]
    rw [if_pos rfl]
  | cons c cs ih =>
    have hc : plainChar c = true := List.all_eq_true.mp hb c (List.mem_cons_self c cs)
    have hcp : c ≠ ')' := by
      intro hx
      subst hx
      simp [plainChar] at hc
    have hcs : cs.all plainChar = true := by
      rw [List.all_eq_true]
      intro x hx
      exact List.all_eq_true.mp hb x (List.mem_cons_of_mem c hx)
    rw [List.cons_append, findParenClose.eq_2]
    rw [if_neg hcp, if_neg (plain_ne_nl hc), ih hcs]

/-- The image tail search on a plain alt text and a plain target finds the
alt text and the remainder after the closing parenthesis. -/
theorem findTailFrom_append (a b r : List Char) (ha : a.all plainChar = true)
    (hb : b.all plainChar = true) :
    findTailFrom (a ++ ']' :: '(' :: (b ++ ')' :: r)) = some (a, r) := by
  induction a with
  | nil =>
    rw [List.nil_append, findTailFrom.eq_2]
    rw [if_pos (by simp [findParenClose_append b r hb])]
    simp [findParenClose_append b r hb]
  | cons c cs ih =>
    have hc : plainChar c = true := List.all_eq_true.mp ha c (List.mem_cons_self c cs)
    have hcb : c ≠ ']' := by
      intro hx
      subst hx
      simp [plainChar] at hc
    have hcs : cs.all plainChar = true := by
      rw [List.all_eq_true]
      intro x hx
      exact List.all_eq_true.mp ha x (List.mem_cons_of_mem c hx)
    rw [List.cons_append, findTailFrom.eq_2]
    rw [if_neg (by intro hx; exact hcb hx.1), if_neg (plain_ne_nl hc), ih hcs]
    rfl

/-- The link tail search on a plain nonempty link text and a plain target
finds the text and the remainder after the closing parenthesis. -/
theorem findLinkTail_append (a b r : List Char) (ha : a.all plainChar = true)
    (hne : a ≠ []) (hb : b.all plainChar = true) :
    findLinkTail (a ++ ']' :: '(' :: (b ++ ')' :: r)) = some (a, r) := by
  induction a with
  | nil => exact absurd rfl hne
  | cons c cs ih =>
    have hc : plainChar c = true := List.all_eq_true.mp ha c (List.mem_cons_self c cs)
    have hcn : c ≠ '\n' := plain_ne_nl hc
    have hcs : cs.all plainChar = true := by
      rw [List.all_eq_true]
      intro x hx
      exact List.all_eq_true.mp ha x (List.mem_cons_of_mem c hx)
    cases cs with
    | nil =>
      rw [List.cons_append, List.nil_append, findLinkTail.eq_2]
      rw [if_neg hcn, if_pos (by simp [findParenClose_append b r hb])]
      simp [findParenClose_append b r hb]
    | cons c2 cs' =>
      have hc2 : plainChar c2 = true :=
        List.all_eq_true.mp hcs c2 (List.mem_cons_self c2 cs')
      have hc2b : c2 ≠ ']' := by
        intro hx
        subst hx
        simp [plainChar] at hc2
      rw [List.cons_append, findLinkTail.eq_2]
      rw [if_neg hcn, if_neg (by intro hx; exact hc2b (by simpa using hx.1)),
        ih hcs (by simp)]
      rfl

/-- Counting hashes over a replicate block stopped by a non-hash head. -/
theorem countHashes_replicate (n : Nat) (l : List Char) (hl : l.head? ≠ some '#') :
    countHashes (List.replicate n '#' ++ l) = n := by
  induction n with
  | zero =>
    simp only [List.replicate, List.nil_append]
    cases l with
    | nil => rfl
    | cons c rest =>
      have hc : c ≠ '#' := by simpa using hl
      simp [countHashes, hc]
  | succ m ih =>
    rw [List.replicate_succ, List.cons_append, countHashes.eq_2, if_pos rfl, ih]

/-- Dropping the single space after the hashes of a heading whose title
does not itself start with whitespace. -/
theorem dropSpacesTrack_space (t : List Char)
    (hsp : ∀ c, t.head? = some c → isPySpace c = false) :
    dropSpacesTrack (' ' :: t) false = (t, false) := by
  simp only [dropSpacesTrack]
  rw [if_pos (by decide)]
  cases t with
  | nil => simp [dropSpacesTrack]
  | cons c rest =>
    have hc : isPySpace c = false := hsp c rfl
    simp [dropSpacesTrack, hc]

/-- The heading substitution on a line of one to six hashes, one space and
a newline-free title not starting with whitespace yields the title. -/
theorem stripHeadings_heading (n : Nat) (hn1 : 1 ≤ n) (hn6 : n ≤ 6)
    (t : List Char) (ht : '\n' ∉ t)
    (hsp : ∀ c, t.head? = some c → isPySpace c = false) :
    stripHeadings true (List.replicate n '#' ++ ' ' :: t) = t := by
  cases n with
  | zero => omega
  | succ m =>
    rw [List.replicate_succ, List.cons_append]
    have hcount : countHashes ('#' :: (List.replicate m '#' ++ ' ' :: t)) = m + 1 := by
      rw [countHashes.eq_2, if_pos rfl, countHashes_replicate m _ (by simp)]
    have hdrop : ('#' :: (List.replicate m '#' ++ ' ' :: t)).drop (m + 1) = ' ' :: t := by
      rw [List.drop_succ_cons]
      have := List.drop_left (List.replicate m '#') (' ' :: t)
      rwa [List.length_replicate] at this
    simp only [stripHeadings]
    rw [dif_pos ?cond]
    case cond =>
      refine ⟨by trivial, ?_, ?_, ?_⟩
      · rw [hcount]; omega
      · rw [hcount]; omega
      · rw [hcount, hdrop]; rfl
    · simp only [hcount, hdrop, dropSpacesTrack_space t hsp]
      exact stripHeadings_false_id t ht

/-- Rebuilding a string from its characters is the identity. -/
theorem string_mk_data (s : String) : String.mk s.data = s := by
  cases s
  rfl

/-- A nonempty string has a nonempty character list. -/
theorem string_data_ne {s : String} (h : s ≠ "") : s.data ≠ [] := by
  intro hd
  exact h (by rw [← string_mk_data s, hd])

/-- The bold substitution on one whole bold span of plain content. -/
theorem stripBold_bold (t : List Char) (ht : t.all plainChar = true) (hne : t ≠ []) :
    stripBold ('*' :: '*' :: (t ++ '*' :: '*' :: [])) = t := by
  rw [stripBold.eq_3, if_pos ⟨rfl, rfl⟩]
  split
  next p hm =>
    rw [findBoldClose_append t [] ht hne] at hm
    injection hm with hm
    subst hm
    simp [stripBold]
  next hm =>
    rw [findBoldClose_append t [] ht hne] at hm
    simp at hm

/-- The italic substitution on one whole italic span of plain content. -/
theorem stripItalic_italic (t : List Char) (ht : t.all plainChar = true)
    (hne : t ≠ []) : stripItalic ('*' :: (t ++ '*' :: [])) = t := by
  rw [stripItalic.eq_2, if_pos rfl]
  split
  next p hm =>
    rw [findItalicClose_append t [] ht hne] at hm
    injection hm with hm
    subst hm
    simp [stripItalic]
  next hm =>
    rw [findItalicClose_append t [] ht hne] at hm
    simp at hm

/-- The image substitution removes one whole image of plain alt text and
plain target entirely. -/
theorem stripImages_image (a b : List Char) (ha : a.all plainChar = true)
    (hb : b.all plainChar = true) :
    stripImages ('!' :: '[' :: (a ++ ']' :: '(' :: (b ++ ')' :: []))) = [] := by
  rw [stripImages.eq_3, if_pos ⟨rfl, rfl⟩]
  split
  next p hm =>
    rw [findTailFrom_append a b [] ha hb] at hm
    injection hm with hm
    subst hm
    simp [stripImages]
  next hm =>
    rw [findTailFrom_append a b [] ha hb] at hm
    simp at hm

/-- The link substitution replaces one whole link of plain nonempty text
and plain target by its text. -/
theorem stripLinks_link (a b : List Char) (ha : a.all plainChar = true)
    (hne : a ≠ []) (hb : b.all plainChar = true) :
    stripLinks ('[' :: (a ++ ']' :: '(' :: (b ++ ')' :: []))) = a := by
  rw [stripLinks.eq_2, if_pos rfl]
  split
  next p hm =>
    rw [findLinkTail_append a b [] ha hne hb] at hm
    injection hm with hm
    subst hm
    simp [stripLinks]
  next hm =>
    rw [findLinkTail_append a b [] ha hne hb] at hm
    simp at hm

/-- Claim C2: the Text export maps a heading line of one to six hashes to
its title, a bold span to its content, an italic span to its content, an
image to nothing, and a link to its text, for plain span contents (the
title additionally must not start with whitespace). -/
theorem claim_C2 (t a b : String) (doc : DoclingDocument)
    (ht : t.data.all plainChar = true) (ht0 : t ≠ "")
    (hth : (t.data.head?.all fun c => !isPySpace c) = true)
    (ha : a.data.all plainChar = true) (ha0 : a ≠ "")
    (hb : b.data.all plainChar = true) :
    export_content doc "Text" = textOfMarkdown doc.export_to_markdown ∧
    (∀ n : Nat, 1 ≤ n → n ≤ 6 →
      textOfMarkdown (String.mk (List.replicate n '#') ++ " " ++ t) = t) ∧
    textOfMarkdown ("**" ++ t ++ "**") = t ∧
    textOfMarkdown ("*" ++ t ++ "*") = t ∧
    textOfMarkdown ("![" ++ a ++ "](" ++ b ++ ")") = "" ∧
    textOfMarkdown ("[" ++ a ++ "](" ++ b ++ ")") = a := by
  have hsp : ∀ c, t.data.head? = some c → isPySpace c = false := by
    intro c hc
    rw [hc] at hth
    simpa using hth
  have tNl : '\n' ∉ t.data := plain_no ht (by decide)
  have tStar : '*' ∉ t.data := plain_no ht (by decide)
  have tBang : '!' ∉ t.data := plain_no ht (by decide)
  have tBr : '[' ∉ t.data := plain_no ht (by decide)
  have aNl : '\n' ∉ a.data := plain_no ha (by decide)
  have aStar : '*' ∉ a.data := plain_no ha (by decide)
  have aBang : '!' ∉ a.data := plain_no ha (by decide)
  have aBr : '[' ∉ a.data := plain_no ha (by decide)
  have bNl : '\n' ∉ b.data := plain_no hb (by decide)
  have bStar : '*' ∉ b.data := plain_no hb (by decide)
  have bBang : '!' ∉ b.data := plain_no hb (by decide)
  have bBr : '[' ∉ b.data := plain_no hb (by decide)
  refine ⟨rfl, ?_, ?_, ?_, ?_, ?_⟩
  · -- heading
    intro n hn1 hn6
    unfold textOfMarkdown
    have hdata : (String.mk (List.replicate n '#') ++ " " ++ t).data
        = List.replicate n '#' ++ ' ' :: t.data := by
      show (List.replicate n '#' ++ [' ']) ++ t.data = _
      rw [List.append_assoc]
      rfl
    rw [hdata, stripHeadings_heading n hn1 hn6 t.data tNl hsp,
      stripBold_id _ (noDoubleStar_of_nmem _ tStar), stripItalic_id _ tStar,
      stripImages_id _ (noImgStart_of_nmem _ tBang), stripLinks_id _ tBr,
      string_mk_data]
  · -- bold
    unfold textOfMarkdown
    have hdata : ("**" ++ t ++ "**").data = '*' :: '*' :: (t.data ++ '*' :: '*' :: []) :=
      rfl
    rw [hdata,
      stripHeadings_true_id _
        (nmem_cons (by decide) (nmem_cons (by decide)
          (nmem_append tNl (by decide)))) (by simp),
      stripBold_bold t.data ht (string_data_ne ht0), stripItalic_id _ tStar,
      stripImages_id _ (noImgStart_of_nmem _ tBang), stripLinks_id _ tBr,
      string_mk_data]
  · -- italic
    unfold textOfMarkdown
    have hdata : ("*" ++ t ++ "*").data = '*' :: (t.data ++ '*' :: []) := rfl
    rw [hdata,
      stripHeadings_true_id _
        (nmem_cons (by decide) (nmem_append tNl (by decide))) (by simp),
      stripBold_id _ (noDoubleStar_wrap t.data tStar (string_data_ne ht0)),
      stripItalic_italic t.data ht (string_data_ne ht0),
      stripImages_id _ (noImgStart_of_nmem _ tBang), stripLinks_id _ tBr,
      string_mk_data]
  · -- image
    unfold textOfMarkdown
    have hdata : ("![" ++ a ++ "](" ++ b ++ ")").data
        = '!' :: '[' :: (a.data ++ ']' :: '(' :: (b.data ++ ')' :: [])) := by
      show '!' :: '[' :: (((a.data ++ [']', '(']) ++ b.data) ++ [')']) = _
      rw [List.append_assoc, List.append_assoc]
      rfl
    have hnl : '\n' ∉ '!' :: '[' :: (a.data ++ ']' :: '(' :: (b.data ++ ')' :: [])) :=
      nmem_cons (by decide) (nmem_cons (by decide)
        (nmem_append aNl (nmem_cons (by decide) (nmem_cons (by decide)
          (nmem_append bNl (by decide))))))
    have hstar : '*' ∉ '!' :: '[' :: (a.data ++ ']' :: '(' :: (b.data ++ ')' :: [])) :=
      nmem_cons (by decide) (nmem_cons (by decide)
        (nmem_append aStar (nmem_cons (by decide) (nmem_cons (by decide)
          (nmem_append bStar (by decide))))))
    rw [hdata, stripHeadings_true_id _ hnl (by simp),
      stripBold_id _ (noDoubleStar_of_nmem _ hstar), stripItalic_id _ hstar,
      stripImages_image a.data b.data ha hb, stripLinks.eq_1]
  · -- link
    unfold textOfMarkdown
    have hdata : ("[" ++ a ++ "](" ++ b ++ ")").data
        = '[' :: (a.data ++ ']' :: '(' :: (b.data ++ ')' :: [])) := by
      show '[' :: (((a.data ++ [']', '(']) ++ b.data) ++ [')']) = _
      rw [List.append_assoc, List.append_assoc]
      rfl
    have hnl : '\n' ∉ '[' :: (a.data ++ ']' :: '(' :: (b.data ++ ')' :: [])) :=
      nmem_cons (by decide)
        (nmem_append aNl (nmem_cons (by decide) (nmem_cons (by decide)
          (nmem_append bNl (by decide)))))
    have hstar : '*' ∉ '[' :: (a.data ++ ']' :: '(' :: (b.data ++ ')' :: [])) :=
      nmem_cons (by decide)
        (nmem_append aStar (nmem_cons (by decide) (nmem_cons (by decide)
          (nmem_append bStar (by decide)))))
    have hbang : '!' ∉ '[' :: (a.data ++ ']' :: '(' :: (b.data ++ ')' :: [])) :=
      nmem_cons (by decide)
        (nmem_append aBang (nmem_cons (by decide) (nmem_cons (by decide)
          (nmem_append bBang (by decide)))))
    rw [hdata, stripHeadings_true_id _ hnl (by simp),
      stripBold_id _ (noDoubleStar_of_nmem _ hstar), stripItalic_id _ hstar,
      stripImages_id _ (noImgStart_of_nmem _ hbang),
      stripLinks_link a.data b.data ha (string_data_ne ha0) hb, string_mk_data]

/-- Witness for claim C2 on the spec examples: a two-hash heading, bold,
italic, an image and a link built from the words Title, alt and url. -/
theorem claim_C2_witness :
    export_content sampleDoc "Text" = textOfMarkdown sampleDoc.export_to_markdown ∧
    textOfMarkdown (String.mk (List.replicate 2 '#') ++ " " ++ "Title") = "Title" ∧
    textOfMarkdown ("**" ++ "Title" ++ "**") = "Title" ∧
    textOfMarkdown ("*" ++ "Title" ++ "*") = "Title" ∧
    textOfMarkdown ("![" ++ "alt" ++ "](" ++ "url" ++ ")") = "" ∧
    textOfMarkdown ("[" ++ "alt" ++ "](" ++ "url" ++ ")") = "alt" := by
  have h := claim_C2 "Title" "alt" "url" sampleDoc (by decide) (by decide)
    (by decide) (by decide) (by decide) (by decide)
  exact ⟨h.1, h.2.1 2 (by decide) (by decide), h.2.2.1, h.2.2.2.1,
    h.2.2.2.2.1, h.2.2.2.2.2⟩

end DoclingGui
